import Mathlib

/-
Shallow embedding of the coordination layer of the distributed integer-sort
middleware: the k-way merge and dispatcher of distributed_sort.py, the worker
registry of server_manager.py, and the job counters of client_handler.py.

Modelling conventions:
- Python ints are Lean Int (values) or Nat (lengths, counters).
- Wall-clock instants and durations (time.time values) carry no arithmetic in
  the verified code paths, so they are modelled as Int values supplied by the
  environment.
- Network I/O is modelled as an environment function: a worker either returns
  a reply list together with its elapsed time, or raises, which is modelled as
  an Except.error carrying the exception text.
- The per-partition worker threads are joined before results are processed;
  registry mutations are serialized by a lock, and each thread touches only the
  record keyed by its own server, so the thread pool is modelled as a fold over
  the (server, chunk) pairs in index order.
- The heapq min-heap holds tuples that are pairwise distinct, so it behaves
  extensionally as a priority queue popping the least tuple; it is modelled as
  a list kept sorted by the tuple order, popping the head.
-/

/-! ### The k-way merge of DistributedSorter.merge_sorted_lists -/

/-- A heap entry of the k-way merge: the tuple (value, index inside the source
list, source list index), mirroring the heapq entries (lst[idx], idx, i). -/
abbrev Entry := Int × Nat × Nat

/-- Python tuple order (non-strict) on heap entries: lexicographic on
(value, index, source index). -/
def entLe (a b : Entry) : Prop :=
  a.1 < b.1 ∨ (a.1 = b.1 ∧ (a.2.1 < b.2.1 ∨ (a.2.1 = b.2.1 ∧ a.2.2 ≤ b.2.2)))

/-- Python tuple order (strict) on heap entries. -/
def entLt (a b : Entry) : Prop :=
  a.1 < b.1 ∨ (a.1 = b.1 ∧ (a.2.1 < b.2.1 ∨ (a.2.1 = b.2.1 ∧ a.2.2 < b.2.2)))

instance : DecidableRel entLe := fun a b => by unfold entLe; exact inferInstance

instance : DecidableRel entLt := fun a b => by unfold entLt; exact inferInstance

instance : IsTotal Entry entLe := ⟨by intro a b; unfold entLe; omega⟩

instance : IsTrans Entry entLe := ⟨by intro a b c; unfold entLe; omega⟩

/-- One iteration of the merge loop after popping entry e: if the source list
has a next element, push (lists[i][idx+1], idx+1, i) onto the heap. -/
def stepHeap (lists : List (List Int)) (e : Entry) (rest : List Entry) : List Entry :=
  if e.2.1 + 1 < (lists.getD e.2.2 []).length then
    List.orderedInsert entLe
      ((lists.getD e.2.2 []).getD (e.2.1 + 1) 0, e.2.1 + 1, e.2.2) rest
  else rest

/-- The while-heap loop of merge_sorted_lists, with explicit fuel; it emits the
popped tuples in order. The fuel passed by mergePops always suffices. -/
def mergeLoopAux (lists : List (List Int)) : Nat → List Entry → List Entry
  | 0, _ => []
  | _ + 1, [] => []
  | fuel + 1, e :: rest => e :: mergeLoopAux lists fuel (stepHeap lists e rest)

/-- The initial heap-filling loop: for i, lst in enumerate(lists), starting at
index i, push (lst[0], 0, i) for every non-empty lst. -/
def initEntriesFrom : Nat → List (List Int) → List Entry
  | _, [] => []
  | i, [] :: ls => initEntriesFrom (i + 1) ls
  | i, (x :: _) :: ls => (x, 0, i) :: initEntriesFrom (i + 1) ls

/-- The initial heap of merge_sorted_lists: the first element of every
non-empty source list, pushed in order. -/
def initHeap (lists : List (List Int)) : List Entry :=
  (initEntriesFrom 0 lists).foldl (fun h e => List.orderedInsert entLe e h) []

/-- Total number of elements across the source lists. -/
def totalLen (lists : List (List Int)) : Nat := (lists.map List.length).sum

/-- The sequence of tuples popped by the merge loop of merge_sorted_lists,
in pop order; the result list of the Python code is the value components. -/
def mergePops (lists : List (List Int)) : List Entry :=
  mergeLoopAux lists (totalLen lists) (initHeap lists)

/-- DistributedSorter.merge_sorted_lists: empty input gives [], a single list
is returned as-is, otherwise the heap loop runs. -/
def merge_sorted_lists (lists : List (List Int)) : List Int :=
  match lists with
  | [] => []
  | [l] => l
  | _ :: _ :: _ => (mergePops lists).map (fun e => e.1)

/-! ### Partitioning in DistributedSorter.process_distributed -/

/-- Python slice l[a:b] for non-negative bounds: clamps and yields [] when
a >= b or a is past the end. -/
def pySlice (l : List Int) (a b : Nat) : List Int := (l.drop a).take (b - a)

/-- chunk_size = max(1, len(numbers) // server_count). -/
def chunkSizeOf (numbers : List Int) (serverCount : Nat) : Nat :=
  max 1 (numbers.length / serverCount)

/-- The chunk-building loop of process_distributed: chunk i is
numbers[i*chunk : (i+1)*chunk] for i < server_count - 1, and the last chunk is
numbers[(server_count-1)*chunk : len(numbers)]. -/
def makeChunks (numbers : List Int) (serverCount : Nat) : List (List Int) :=
  (List.range serverCount).map (fun i =>
    let start := i * chunkSizeOf numbers serverCount
    let stop := if i < serverCount - 1 then start + chunkSizeOf numbers serverCount
                else numbers.length
    pySlice numbers start stop)

/-! ### The worker registry of server_manager.py -/

/-- ServerInfo dataclass. Wall-clock fields are modelled as Int. -/
structure ServerInfo where
  ip : String
  port : Int
  name : String
  active : Bool
  last_response_time : Int
  last_check_time : Int
  total_processed : Nat
deriving DecidableEq

/-- Reply dictionary of ServerManager.register_server: either an error with
its mensaje text, or the success dictionary with status "registered". -/
inductive RegReply where
  | errorReply (mensaje : String)
  | registered
deriving DecidableEq

/-- The record built by register_server for both the replace and the append
branch: ServerInfo(ip, port, name, True, time.time(), time.time()), that is,
positionally active := true, last_response_time := now, last_check_time := now,
and total_processed left at its default 0. -/
def newServerRecord (now : Int) (ip : String) (port : Int) (name : String) : ServerInfo :=
  ⟨ip, port, name, true, now, now, 0⟩

/-- The for-else loop of register_server: replace the first record with the
same (ip, port) key, else append a new record. -/
def registerLoop (now : Int) (ip : String) (port : Int) (name : String) :
    List ServerInfo → List ServerInfo
  | [] => [newServerRecord now ip port name]
  | s :: rest =>
    if s.ip = ip ∧ s.port = port then newServerRecord now ip port name :: rest
    else s :: registerLoop now ip port name rest

/-- The mensaje of the missing-fields error reply. -/
def missingFieldsMsg : String := "Faltan campos obligatorios (ip, port, name)"

/-- The mensaje of the invalid-port error reply. -/
def invalidPortMsg : String := "Puerto inválido"

/-- ServerManager.register_server. data.get of an absent key is None, modelled
by Option; the truthiness test all([ip, port, name]) fails on None, on the
empty string and on port 0. Returns the updated registry and the reply. -/
def registerServer (now : Int) (servers : List ServerInfo)
    (ip? : Option String) (port? : Option Int) (name? : Option String) :
    List ServerInfo × RegReply :=
  match ip?, port?, name? with
  | some ip, some port, some name =>
    if ip = "" ∨ port = 0 ∨ name = "" then (servers, .errorReply missingFieldsMsg)
    else if port ≤ 0 ∨ port > 65535 then (servers, .errorReply invalidPortMsg)
    else (registerLoop now ip port name servers, .registered)
  | _, _, _ => (servers, .errorReply missingFieldsMsg)

/-- ServerManager.get_active_servers. -/
def getActiveServers (servers : List ServerInfo) : List ServerInfo :=
  servers.filter (fun s => s.active)

/-- ServerManager.update_server_stats: on the first record with the given key,
set last_response_time and add to total_processed. -/
def updateServerStats : List ServerInfo → String → Int → Int → Nat → List ServerInfo
  | [], _, _, _, _ => []
  | s :: rest, ip, port, t, n =>
    if s.ip = ip ∧ s.port = port then
      { s with last_response_time := t, total_processed := s.total_processed + n } :: rest
    else s :: updateServerStats rest ip port t n

/-- ServerManager.mark_server_inactive: flip active to false on the first
record with the given key. -/
def markServerInactive : List ServerInfo → String → Int → List ServerInfo
  | [], _, _ => []
  | s :: rest, ip, port =>
    if s.ip = ip ∧ s.port = port then { s with active := false } :: rest
    else s :: markServerInactive rest ip port

/-! ### The dispatcher of DistributedSorter -/

/-- Operation statistics of DistributedSorter.stats. avg_response_time is
initialised and never updated by the verified paths. -/
structure SortStats where
  bytes_processed : Nat
  numbers_sorted : Nat
  total_errors : Nat
  avg_response_time : Int
deriving DecidableEq

/-- ServerResult dataclass. -/
structure ServerResult where
  server : ServerInfo
  data : List Int
  success : Bool
  error_message : String
  processing_time : Int
deriving DecidableEq

/-- The worker-side environment: for a given server and chunk, either the
sorted reply together with the elapsed wall-clock time, or the text of the
exception raised during the round trip. -/
abbrev Net := ServerInfo → List Int → Except String (List Int × Int)

/-- DistributedSorter.send_chunk_to_server: on success, update the server
stats and return the reply; on any exception, mark the server inactive and
return a failed ServerResult. Returns the updated registry and the result. -/
def sendChunkToServer (net : Net) (registry : List ServerInfo)
    (server : ServerInfo) (chunk : List Int) : List ServerInfo × ServerResult :=
  match net server chunk with
  | .ok (sortedChunk, elapsed) =>
      (updateServerStats registry server.ip server.port elapsed chunk.length,
       ⟨server, sortedChunk, true, "", elapsed⟩)
  | .error msg =>
      (markServerInactive registry server.ip server.port,
       ⟨server, [], false, msg, 0⟩)

/-- The joined thread pool of process_distributed: one send_chunk_to_server
call per (server, chunk) pair, results collected in index order, registry
updates applied in sequence. -/
def runWorkers (net : Net) :
    List ServerInfo → List (ServerInfo × List Int) → List ServerInfo × List ServerResult
  | registry, [] => (registry, [])
  | registry, (s, c) :: rest =>
      let p := sendChunkToServer net registry s c
      let q := runWorkers net p.1 rest
      (q.1, p.2 :: q.2)

/-- Outcome of one process_distributed call: final registry, final stats, the
payload framed to the client (some merged list) or none when a JSON error
object was sent instead, and the boolean return value. -/
structure DispatchOut where
  registry : List ServerInfo
  stats : SortStats
  sent : Option (List Int)
  retval : Bool
deriving DecidableEq

/-- DistributedSorter.process_distributed, entered after
update_servers_status: the given registry already carries the probed active
flags. Mirrors the source: bail out when no server is active, add
len(numbers) to numbers_sorted, build the chunks, run the workers, count the
failures into total_errors, and either report that every server failed or
send the merge of the successful results. -/
def processDistributed (net : Net) (registry : List ServerInfo)
    (stats : SortStats) (numbers : List Int) : DispatchOut :=
  let active := getActiveServers registry
  if active.isEmpty then ⟨registry, stats, none, false⟩
  else
    let stats1 := { stats with numbers_sorted := stats.numbers_sorted + numbers.length }
    let chunks := makeChunks numbers active.length
    let r := runWorkers net registry (active.zip chunks)
    let successfulResults := (r.2.filter (fun x => x.success)).map (fun x => x.data)
    let failedCount := (r.2.filter (fun x => !x.success)).length
    let stats2 := { stats1 with total_errors := stats1.total_errors + failedCount }
    if successfulResults.isEmpty then ⟨r.1, stats2, none, false⟩
    else ⟨r.1, stats2, some (merge_sorted_lists successfulResults), true⟩

/-! ### The job counters of ClientHandler.handle_distributed_sort -/

/-- The counter update after process_distributed returns: total_operations is
always incremented, successful_operations only on a true return. The pair is
(total_operations, successful_operations). -/
def recordDispatch (counters : Nat × Nat) (success : Bool) : Nat × Nat :=
  (counters.1 + 1, if success then counters.2 + 1 else counters.2)

/-- The counters after a whole sequence of dispatch outcomes, starting from
the constructor state (0, 0). -/
def runDispatches (outcomes : List Bool) : Nat × Nat :=
  outcomes.foldl recordDispatch (0, 0)

/-! ### Invariants of the merge heap -/

/-- A heap entry is well formed for the given source lists: its source index
is in range, its position is inside its source list, and its value is the
element at that position. -/
def entOk (lists : List (List Int)) (e : Entry) : Prop :=
  e.2.2 < lists.length ∧ e.2.1 < (lists.getD e.2.2 []).length ∧
    e.1 = (lists.getD e.2.2 []).getD e.2.1 0

/-- Two heap entries come from different source lists. -/
def srcNe (a b : Entry) : Prop := a.2.2 ≠ b.2.2

/-- The heap invariant of the merge loop: the heap is sorted by the tuple
order, every entry is well formed, and no source list has two entries. -/
def heapWF (lists : List (List Int)) (h : List Entry) : Prop :=
  h.Sorted entLe ∧ (∀ e ∈ h, entOk lists e) ∧ h.Pairwise srcNe

/-- Number of elements of the source list of e not yet popped, e included. -/
def remainingOf (lists : List (List Int)) (e : Entry) : Nat :=
  (lists.getD e.2.2 []).length - e.2.1

/-- Total number of elements the heap will still emit. -/
def heapFuel (lists : List (List Int)) (h : List Entry) : Nat :=
  (h.map (remainingOf lists)).sum

/-- The multiset of elements of an integer list. -/
def listMS (l : List Int) : Multiset Int := (l : Multiset Int)

/-- The multiset of elements the heap will still emit: for every entry, the
suffix of its source list from its position on. -/
def heapMsum (lists : List (List Int)) (h : List Entry) : Multiset Int :=
  (h.map (fun e => ((lists.getD e.2.2 []).drop e.2.1 : Multiset Int))).sum

/-- Every source list is non-decreasing. -/
def sortedLists (lists : List (List Int)) : Prop :=
  ∀ l ∈ lists, l.Sorted (· ≤ ·)

theorem entLe_of_entLt {a b : Entry} (h : entLt a b) : entLe a b := by
  unfold entLt at h; unfold entLe; omega

theorem entLt_of_entLe_srcNe {a b : Entry} (h : entLe a b) (hne : a.2.2 ≠ b.2.2) :
    entLt a b := by
  unfold entLe at h; unfold entLt; omega

theorem entLt_trans {a b c : Entry} (h1 : entLt a b) (h2 : entLt b c) : entLt a c := by
  unfold entLt at h1 h2 ⊢; omega

theorem fst_le_of_entLt {a b : Entry} (h : entLt a b) : a.1 ≤ b.1 := by
  unfold entLt at h; omega

theorem srcNe_symm : ∀ {x y : Entry}, srcNe x y → srcNe y x := fun h => Ne.symm h

theorem mem_stepHeap {lists : List (List Int)} {e x : Entry} {rest : List Entry}
    (hx : x ∈ stepHeap lists e rest) :
    x ∈ rest ∨ (e.2.1 + 1 < (lists.getD e.2.2 []).length ∧
      x = ((lists.getD e.2.2 []).getD (e.2.1 + 1) 0, e.2.1 + 1, e.2.2)) := by
  unfold stepHeap at hx
  split at hx
  case isTrue h =>
    rcases (List.mem_orderedInsert entLe).mp hx with h1 | h1
    · exact Or.inr ⟨h, h1⟩
    · exact Or.inl h1
  case isFalse h => exact Or.inl hx

theorem stepHeap_WF {lists : List (List Int)} {e : Entry} {rest : List Entry}
    (hWF : heapWF lists (e :: rest)) : heapWF lists (stepHeap lists e rest) := by
  obtain ⟨hs, hok, hp⟩ := hWF
  have hsRest : rest.Sorted entLe := (List.sorted_cons.mp hs).2
  have hokRest : ∀ x ∈ rest, entOk lists x := fun x hx => hok x (List.mem_cons_of_mem _ hx)
  have hpRest : rest.Pairwise srcNe := (List.pairwise_cons.mp hp).2
  have hsrc : ∀ x ∈ rest, srcNe e x := (List.pairwise_cons.mp hp).1
  unfold stepHeap
  split
  case isTrue hlt =>
    refine ⟨List.Sorted.orderedInsert _ _ hsRest, ?_, ?_⟩
    · intro x hx
      rcases (List.mem_orderedInsert entLe).mp hx with rfl | hx2
      · exact ⟨(hok e (List.mem_cons_self _ _)).1, hlt, rfl⟩
      · exact hokRest x hx2
    · refine List.Pairwise.perm ?_ (List.perm_orderedInsert _ _ _).symm srcNe_symm
      exact List.pairwise_cons.mpr ⟨fun x hx => hsrc x hx, hpRest⟩
  case isFalse => exact ⟨hsRest, hokRest, hpRest⟩

theorem stepHeap_lt {lists : List (List Int)} {e : Entry} {rest : List Entry}
    (hWF : heapWF lists (e :: rest)) (hsl : sortedLists lists) :
    ∀ x ∈ stepHeap lists e rest, entLt e x := by
  obtain ⟨hs, hok, hp⟩ := hWF
  intro x hx
  rcases mem_stepHeap hx with hx2 | ⟨hlt, rfl⟩
  · exact entLt_of_entLe_srcNe (List.rel_of_sorted_cons hs x hx2)
      ((List.pairwise_cons.mp hp).1 x hx2)
  · have he := hok e (List.mem_cons_self _ _)
    have hmem : lists.getD e.2.2 [] ∈ lists := by
      rw [List.getD_eq_getElem _ _ he.1]
      exact List.getElem_mem _
    have hsorted : List.Pairwise (· ≤ ·) (lists.getD e.2.2 []) := hsl _ hmem
    have hle : (lists.getD e.2.2 []).getD e.2.1 0 ≤
        (lists.getD e.2.2 []).getD (e.2.1 + 1) 0 := by
      rw [List.getD_eq_getElem _ _ he.2.1, List.getD_eq_getElem _ _ hlt]
      exact List.pairwise_iff_getElem.mp hsorted _ _ _ _ (Nat.lt_succ_self _)
    have hv : e.1 ≤ (lists.getD e.2.2 []).getD (e.2.1 + 1) 0 := he.2.2 ▸ hle
    rcases lt_or_eq_of_le hv with h | h
    · exact Or.inl h
    · exact Or.inr ⟨h, Or.inl (Nat.lt_succ_self _)⟩

theorem heapFuel_cons (lists : List (List Int)) (e : Entry) (h : List Entry) :
    heapFuel lists (e :: h) = remainingOf lists e + heapFuel lists h := by
  simp [heapFuel]

theorem heapFuel_orderedInsert (lists : List (List Int)) (a : Entry) (h : List Entry) :
    heapFuel lists (List.orderedInsert entLe a h) = remainingOf lists a + heapFuel lists h := by
  unfold heapFuel
  rw [((List.perm_orderedInsert entLe a h).map (remainingOf lists)).sum_eq]
  simp

theorem heapMsum_cons (lists : List (List Int)) (e : Entry) (h : List Entry) :
    heapMsum lists (e :: h) =
      ((lists.getD e.2.2 []).drop e.2.1 : Multiset Int) + heapMsum lists h := by
  simp [heapMsum]

theorem heapMsum_orderedInsert (lists : List (List Int)) (a : Entry) (h : List Entry) :
    heapMsum lists (List.orderedInsert entLe a h) =
      ((lists.getD a.2.2 []).drop a.2.1 : Multiset Int) + heapMsum lists h := by
  unfold heapMsum
  rw [((List.perm_orderedInsert entLe a h).map _).sum_eq]
  simp

theorem stepHeap_fuel {lists : List (List Int)} {e : Entry} {rest : List Entry}
    (he : entOk lists e) :
    heapFuel lists (stepHeap lists e rest) + 1 = heapFuel lists (e :: rest) := by
  have hi := he.2.1
  rw [heapFuel_cons]
  unfold stepHeap
  split
  case isTrue hlt =>
    rw [heapFuel_orderedInsert]
    unfold remainingOf
    dsimp only
    omega
  case isFalse hge =>
    unfold remainingOf
    omega

theorem stepHeap_msum {lists : List (List Int)} {e : Entry} {rest : List Entry}
    (he : entOk lists e) :
    heapMsum lists (e :: rest) = e.1 ::ₘ heapMsum lists (stepHeap lists e rest) := by
  have hi := he.2.1
  rw [heapMsum_cons]
  have hdrop : (lists.getD e.2.2 []).drop e.2.1 =
      (lists.getD e.2.2 []).getD e.2.1 0 :: (lists.getD e.2.2 []).drop (e.2.1 + 1) := by
    rw [List.getD_eq_getElem _ _ hi]
    exact List.drop_eq_getElem_cons hi
  unfold stepHeap
  split
  case isTrue hlt =>
    rw [heapMsum_orderedInsert, hdrop]
    rw [← Multiset.cons_coe, Multiset.cons_add, he.2.2]
  case isFalse hge =>
    have hnil : (lists.getD e.2.2 []).drop (e.2.1 + 1) = [] :=
      List.drop_eq_nil_iff.mpr (by omega)
    rw [hdrop, hnil]
    rw [← Multiset.cons_coe, Multiset.cons_add, he.2.2]
    simp

theorem mergeLoopAux_lt {lists : List (List Int)} (hsl : sortedLists lists) :
    ∀ (fuel : Nat) (h : List Entry) (b : Entry), heapWF lists h →
      (∀ x ∈ h, entLt b x) → ∀ y ∈ mergeLoopAux lists fuel h, entLt b y := by
  intro fuel
  induction fuel with
  | zero => intro h b _ _ y hy; simp [mergeLoopAux] at hy
  | succ n ih =>
    intro h b hWF hb y hy
    match h with
    | [] => simp [mergeLoopAux] at hy
    | e :: rest =>
      simp only [mergeLoopAux] at hy
      rcases List.mem_cons.mp hy with rfl | hy2
      · exact hb y (List.mem_cons_self _ _)
      · exact ih (stepHeap lists e rest) b (stepHeap_WF hWF)
          (fun x hx => entLt_trans (hb e (List.mem_cons_self _ _)) (stepHeap_lt hWF hsl x hx))
          y hy2

theorem mergeLoopAux_pairwise {lists : List (List Int)} (hsl : sortedLists lists) :
    ∀ (fuel : Nat) (h : List Entry), heapWF lists h →
      (mergeLoopAux lists fuel h).Pairwise entLt := by
  intro fuel
  induction fuel with
  | zero => intro h _; simp [mergeLoopAux]
  | succ n ih =>
    intro h hWF
    match h with
    | [] => simp [mergeLoopAux]
    | e :: rest =>
      simp only [mergeLoopAux]
      refine List.pairwise_cons.mpr ⟨?_, ih _ (stepHeap_WF hWF)⟩
      intro y hy
      exact mergeLoopAux_lt hsl n _ e (stepHeap_WF hWF) (stepHeap_lt hWF hsl) y hy

theorem mergeLoopAux_msum {lists : List (List Int)} :
    ∀ (fuel : Nat) (h : List Entry), heapWF lists h → fuel = heapFuel lists h →
      (((mergeLoopAux lists fuel h).map (fun e => e.1) : List Int) : Multiset Int) =
        heapMsum lists h := by
  intro fuel
  induction fuel with
  | zero =>
    intro h hWF hf
    match h with
    | [] => simp [mergeLoopAux, heapMsum]
    | e :: rest =>
      exfalso
      have he := hWF.2.1 e (List.mem_cons_self _ _)
      have hi := he.2.1
      have h1 : 1 ≤ remainingOf lists e := by unfold remainingOf; omega
      rw [heapFuel_cons] at hf
      omega
  | succ n ih =>
    intro h hWF hf
    match h with
    | [] => simp [heapFuel] at hf
    | e :: rest =>
      simp only [mergeLoopAux, List.map_cons]
      have he := hWF.2.1 e (List.mem_cons_self _ _)
      have hstep := @stepHeap_fuel lists e rest he
      have hfn : n = heapFuel lists (stepHeap lists e rest) := by omega
      rw [← Multiset.cons_coe]
      rw [ih _ (stepHeap_WF hWF) hfn, ← stepHeap_msum he]

theorem foldl_orderedInsert_perm :
    ∀ (es acc : List Entry),
      List.Perm (es.foldl (fun h e => List.orderedInsert entLe e h) acc) (es ++ acc) := by
  intro es
  induction es with
  | nil => intro acc; simp
  | cons e es ih =>
    intro acc
    simp only [List.foldl_cons]
    refine (ih (List.orderedInsert entLe e acc)).trans ?_
    have h2 : List.Perm (List.orderedInsert entLe e acc) (e :: acc) :=
      List.perm_orderedInsert _ _ _
    exact ((List.Perm.refl es).append h2).trans List.perm_middle

theorem foldl_orderedInsert_sorted :
    ∀ (es acc : List Entry), acc.Sorted entLe →
      (es.foldl (fun h e => List.orderedInsert entLe e h) acc).Sorted entLe := by
  intro es
  induction es with
  | nil => intro acc h; simpa using h
  | cons e es ih =>
    intro acc h
    simp only [List.foldl_cons]
    exact ih _ (List.Sorted.orderedInsert _ _ h)

theorem initHeap_perm (lists : List (List Int)) :
    List.Perm (initHeap lists) (initEntriesFrom 0 lists) := by
  unfold initHeap
  simpa using foldl_orderedInsert_perm (initEntriesFrom 0 lists) []

theorem initHeap_sorted (lists : List (List Int)) : (initHeap lists).Sorted entLe :=
  foldl_orderedInsert_sorted _ [] (by simp)

theorem initEntriesFrom_spec (lists : List (List Int)) :
    ∀ (ls : List (List Int)) (i : Nat), lists.drop i = ls →
      (∀ e ∈ initEntriesFrom i ls, entOk lists e ∧ e.2.1 = 0 ∧ i ≤ e.2.2) ∧
      (initEntriesFrom i ls).Pairwise srcNe ∧
      heapFuel lists (initEntriesFrom i ls) = totalLen ls ∧
      heapMsum lists (initEntriesFrom i ls) =
        (ls.map listMS).sum := by
  intro ls
  induction ls with
  | nil =>
    intro i hi
    simp [initEntriesFrom, heapFuel, heapMsum, totalLen]
  | cons l ls ih =>
    intro i hi
    have hdrop : lists.drop (i + 1) = ls := by
      rw [← List.tail_drop, hi]
      rfl
    have hlen : i < lists.length := by
      by_contra hc
      have hnil : lists.drop i = [] := List.drop_eq_nil_iff.mpr (by omega)
      rw [hi] at hnil
      simp at hnil
    have hgetD : lists.getD i [] = l := by
      have hsome : lists[i]? = some l := by
        have h0 : (lists.drop i)[0]? = lists[i + 0]? := List.getElem?_drop lists i 0
        rw [hi] at h0
        simpa using h0.symm
      rw [List.getD_eq_getD_get?, List.get?_eq_getElem?, hsome]
      rfl
    obtain ⟨ihok, ihpw, ihfuel, ihmsum⟩ := ih (i + 1) hdrop
    rcases l with _ | ⟨x, t⟩
    · simp only [initEntriesFrom]
      refine ⟨fun e he => ⟨(ihok e he).1, (ihok e he).2.1, by
        have := (ihok e he).2.2; omega⟩, ihpw, ?_, ?_⟩
      · rw [ihfuel]; simp [totalLen]
      · rw [ihmsum]; simp [listMS]
    · simp only [initEntriesFrom]
      refine ⟨?_, ?_, ?_, ?_⟩
      · intro e he
        rcases List.mem_cons.mp he with rfl | he2
        · exact ⟨⟨hlen, by rw [hgetD]; simp, by rw [hgetD]; rfl⟩, rfl, le_refl i⟩
        · exact ⟨(ihok e he2).1, (ihok e he2).2.1, by have := (ihok e he2).2.2; omega⟩
      · refine List.pairwise_cons.mpr ⟨?_, ihpw⟩
        intro e he
        have := (ihok e he).2.2
        unfold srcNe
        dsimp only
        omega
      · rw [heapFuel_cons, ihfuel]
        unfold remainingOf totalLen
        dsimp only
        rw [hgetD]
        simp
      · rw [heapMsum_cons, ihmsum]
        dsimp only
        rw [hgetD]
        simp [listMS]

theorem initHeap_spec (lists : List (List Int)) :
    heapWF lists (initHeap lists) ∧
    heapFuel lists (initHeap lists) = totalLen lists ∧
    heapMsum lists (initHeap lists) =
      (lists.map listMS).sum := by
  obtain ⟨hok, hpw, hfuel, hmsum⟩ := initEntriesFrom_spec lists lists 0 (by simp)
  have hperm := initHeap_perm lists
  refine ⟨⟨initHeap_sorted lists, ?_, ?_⟩, ?_, ?_⟩
  · intro e he
    exact (hok e (hperm.mem_iff.mp he)).1
  · exact List.Pairwise.perm hpw hperm.symm srcNe_symm
  · unfold heapFuel
    rw [(hperm.map (remainingOf lists)).sum_eq]
    exact hfuel
  · unfold heapMsum
    rw [(hperm.map _).sum_eq]
    exact hmsum

/-! ### Derived facts about the merge -/

theorem mergePops_pairwise (lists : List (List Int)) (hsl : sortedLists lists) :
    (mergePops lists).Pairwise entLt :=
  mergeLoopAux_pairwise hsl _ _ (initHeap_spec lists).1

theorem mergePops_msum (lists : List (List Int)) :
    (((mergePops lists).map (fun e => e.1) : List Int) : Multiset Int) =
      (lists.map listMS).sum := by
  unfold mergePops
  rw [mergeLoopAux_msum _ _ (initHeap_spec lists).1 (initHeap_spec lists).2.1.symm]
  exact (initHeap_spec lists).2.2

theorem mergePops_map_sorted (lists : List (List Int)) (hsl : sortedLists lists) :
    ((mergePops lists).map (fun e => e.1)).Sorted (· ≤ ·) :=
  List.Pairwise.map _ (fun _ _ h => fst_le_of_entLt h) (mergePops_pairwise lists hsl)

theorem merge_msum (lists : List (List Int)) :
    ((merge_sorted_lists lists : List Int) : Multiset Int) =
      (lists.map listMS).sum := by
  match lists with
  | [] => simp [merge_sorted_lists]
  | [l] => simp [merge_sorted_lists, listMS]
  | a :: b :: t => exact mergePops_msum _

theorem merge_sorted (lists : List (List Int)) (hsl : sortedLists lists) :
    (merge_sorted_lists lists).Sorted (· ≤ ·) := by
  match lists with
  | [] => simp [merge_sorted_lists]
  | [l] => exact hsl l (List.mem_cons_self _ _)
  | a :: b :: t => exact mergePops_map_sorted _ hsl

/-! ### Facts about the partitioning -/

theorem pySlice_join (numbers : List Int) (ch : Nat) :
    ∀ m, ((List.range m).map
        (fun i => pySlice numbers (i * ch) (i * ch + ch))).flatten =
      numbers.take (m * ch) := by
  intro m
  induction m with
  | zero => simp
  | succ k ih =>
    rw [List.range_succ, List.map_append, List.flatten_append]
    simp only [List.map_cons, List.map_nil, List.flatten_cons, List.flatten_nil,
      List.append_nil]
    rw [ih]
    unfold pySlice
    rw [Nat.add_sub_cancel_left, Nat.succ_mul, List.take_add]

theorem makeChunks_eq_split (numbers : List Int) (c : Nat) (hc : 1 ≤ c) :
    makeChunks numbers c =
      ((List.range (c - 1)).map (fun i =>
        pySlice numbers (i * chunkSizeOf numbers c)
          (i * chunkSizeOf numbers c + chunkSizeOf numbers c))) ++
      [pySlice numbers ((c - 1) * chunkSizeOf numbers c) numbers.length] := by
  obtain ⟨k, rfl⟩ : ∃ k, c = k + 1 := ⟨c - 1, by omega⟩
  unfold makeChunks
  rw [List.range_succ, List.map_append]
  simp only [List.map_cons, List.map_nil, Nat.add_sub_cancel]
  congr 1
  · apply List.map_congr_left
    intro i hi
    have : i < k := List.mem_range.mp hi
    simp [this]
  · simp

theorem makeChunks_flatten (numbers : List Int) (c : Nat) (hc : 1 ≤ c) :
    (makeChunks numbers c).flatten = numbers := by
  rw [makeChunks_eq_split _ _ hc, List.flatten_append]
  simp only [List.flatten_cons, List.flatten_nil, List.append_nil]
  rw [pySlice_join]
  unfold pySlice
  have hlast : (numbers.drop ((c - 1) * chunkSizeOf numbers c)).take
      (numbers.length - (c - 1) * chunkSizeOf numbers c) =
      numbers.drop ((c - 1) * chunkSizeOf numbers c) := by
    apply List.take_of_length_le
    simp
  rw [hlast, List.take_append_drop]

theorem makeChunks_length (numbers : List Int) (c : Nat) :
    (makeChunks numbers c).length = c := by
  simp [makeChunks]

/-! ### Claim C2: the partitioning step -/

/-- C2: for every input list of length n and every active-worker count c >= 1,
the partitioning step builds exactly c partitions with
chunk = max(1, n / c); partition i for i < c-1 is input[i*chunk : (i+1)*chunk],
the last partition is input[(c-1)*chunk : n], and the concatenation of the
partitions equals the input, so the partitions are contiguous and disjoint and
the remainder lands on the last worker. -/
theorem partition_spec (numbers : List Int) (c : Nat) (hc : 1 ≤ c) :
    (makeChunks numbers c).length = c ∧
    chunkSizeOf numbers c = max 1 (numbers.length / c) ∧
    (∀ i, i < c - 1 → (makeChunks numbers c).getD i [] =
      pySlice numbers (i * chunkSizeOf numbers c) ((i + 1) * chunkSizeOf numbers c)) ∧
    (makeChunks numbers c).getD (c - 1) [] =
      pySlice numbers ((c - 1) * chunkSizeOf numbers c) numbers.length ∧
    (makeChunks numbers c).flatten = numbers := by
  have hget : ∀ i, i < c → (makeChunks numbers c).getD i [] =
      (if i < c - 1 then
        pySlice numbers (i * chunkSizeOf numbers c)
          (i * chunkSizeOf numbers c + chunkSizeOf numbers c)
      else pySlice numbers (i * chunkSizeOf numbers c) numbers.length) := by
    intro i hic
    have hlen : i < (makeChunks numbers c).length := by
      rw [makeChunks_length]; exact hic
    rw [List.getD_eq_getElem _ _ hlen]
    unfold makeChunks
    simp only [List.getElem_map, List.getElem_range]
    split <;> rfl
  refine ⟨makeChunks_length _ _, rfl, ?_, ?_, makeChunks_flatten _ _ hc⟩
  · intro i hi
    rw [hget i (by omega), if_pos hi, Nat.succ_mul]
  · rw [hget (c - 1) (by omega), if_neg (by omega)]

/-- Witness for partition_spec at the perfect-split scenario of the spec:
input [9,2,7,1,8,3] over three workers. -/
theorem partition_spec_witness :
    1 ≤ 3 ∧
    ((makeChunks [9,2,7,1,8,3] 3).length = 3 ∧
     chunkSizeOf [9,2,7,1,8,3] 3 = max 1 (([9,2,7,1,8,3] : List Int).length / 3) ∧
     (∀ i, i < 3 - 1 → (makeChunks [9,2,7,1,8,3] 3).getD i [] =
       pySlice [9,2,7,1,8,3] (i * chunkSizeOf [9,2,7,1,8,3] 3)
         ((i + 1) * chunkSizeOf [9,2,7,1,8,3] 3)) ∧
     (makeChunks [9,2,7,1,8,3] 3).getD (3 - 1) [] =
       pySlice [9,2,7,1,8,3] ((3 - 1) * chunkSizeOf [9,2,7,1,8,3] 3)
         ([9,2,7,1,8,3] : List Int).length ∧
     (makeChunks [9,2,7,1,8,3] 3).flatten = [9,2,7,1,8,3]) :=
  ⟨by decide, partition_spec [9,2,7,1,8,3] 3 (by decide)⟩

/-! ### Claim C3: the k-way merge -/

/-- C3: for every list L of sorted integer sequences, merge_sorted_lists L is
non-decreasing and its multiset equals the multiset union of the elements of
L; moreover the merge of [] is [] and the merge of a single sequence x is x. -/
theorem merge_spec (L : List (List Int)) (hL : ∀ l ∈ L, l.Sorted (· ≤ ·)) :
    (merge_sorted_lists L).Sorted (· ≤ ·) ∧
    ((merge_sorted_lists L : List Int) : Multiset Int) =
      (L.map listMS).sum ∧
    merge_sorted_lists ([] : List (List Int)) = [] ∧
    ∀ x : List Int, merge_sorted_lists [x] = x :=
  ⟨merge_sorted L hL, merge_msum L, rfl, fun _ => rfl⟩

/-- Witness for merge_spec on the three already-sorted worker replies of the
perfect-split scenario. -/
theorem merge_spec_witness :
    (∀ l ∈ ([[2,9],[1,7],[3,8]] : List (List Int)), l.Sorted (· ≤ ·)) ∧
    ((merge_sorted_lists [[2,9],[1,7],[3,8]]).Sorted (· ≤ ·) ∧
     ((merge_sorted_lists [[2,9],[1,7],[3,8]] : List Int) : Multiset Int) =
       (([[2,9],[1,7],[3,8]] : List (List Int)).map listMS).sum ∧
     merge_sorted_lists ([] : List (List Int)) = [] ∧
     ∀ x : List Int, merge_sorted_lists [x] = x) :=
  ⟨by decide, merge_spec _ (by decide)⟩

/-! ### Claim C4: the tie-break of the merge -/

/-- C4 as stated is false: the heap is keyed by the full tuple
(value, index inside the source, source index), so with sources [2,5] and [5],
both offering the equal value 5, the 5 of source 1 (at index 0) is emitted
before the 5 of source 0 (at index 1): the relative order of equal values
does not follow the source order. -/
theorem merge_not_source_stable :
    mergePops ([[2,5],[5]] : List (List Int)) =
      [((2 : Int), 0, 0), ((5 : Int), 0, 1), ((5 : Int), 1, 0)] ∧
    (∀ l ∈ ([[2,5],[5]] : List (List Int)), l.Sorted (· ≤ ·)) ∧
    ¬ (mergePops ([[2,5],[5]] : List (List Int))).Pairwise
        (fun a b => a.1 = b.1 → a.2.2 ≤ b.2.2) :=
  ⟨by decide, by decide, by decide⟩

/-- C4 amended: the min-heap is keyed by (current value, index inside the
source, source index), so among equal values the smaller index inside the
source wins, and the lower source index is emitted first only when both the
values and the indices are equal. -/
theorem merge_heap_key_stable (L : List (List Int)) (hL : ∀ l ∈ L, l.Sorted (· ≤ ·)) :
    (mergePops L).Pairwise (fun a b => a.1 = b.1 →
      a.2.1 < b.2.1 ∨ (a.2.1 = b.2.1 ∧ a.2.2 < b.2.2)) :=
  (mergePops_pairwise L hL).imp (fun h heq => by unfold entLt at h; omega)

/-- Witness for merge_heap_key_stable at the counterexample input. -/
theorem merge_heap_key_stable_witness :
    (∀ l ∈ ([[2,5],[5]] : List (List Int)), l.Sorted (· ≤ ·)) ∧
    (mergePops ([[2,5],[5]] : List (List Int))).Pairwise (fun a b => a.1 = b.1 →
      a.2.1 < b.2.1 ∨ (a.2.1 = b.2.1 ∧ a.2.2 < b.2.2)) :=
  ⟨by decide, merge_heap_key_stable _ (by decide)⟩

/-! ### Claims C5, C6, C10: register_server -/

theorem registerLoop_no_match (now : Int) (ip name : String) (port : Int) :
    ∀ servers : List ServerInfo, (∀ x ∈ servers, ¬(x.ip = ip ∧ x.port = port)) →
      registerLoop now ip port name servers =
        servers ++ [newServerRecord now ip port name] := by
  intro servers
  induction servers with
  | nil => intro _; rfl
  | cons s rest ih =>
    intro h
    unfold registerLoop
    rw [if_neg (h s (List.mem_cons_self _ _))]
    rw [ih (fun x hx => h x (List.mem_cons_of_mem _ hx))]
    rfl

theorem registerLoop_first_match (now : Int) (ip name : String) (port : Int) :
    ∀ (pre : List ServerInfo) (old : ServerInfo) (post : List ServerInfo),
      (∀ x ∈ pre, ¬(x.ip = ip ∧ x.port = port)) →
      (old.ip = ip ∧ old.port = port) →
      registerLoop now ip port name (pre ++ old :: post) =
        pre ++ newServerRecord now ip port name :: post := by
  intro pre
  induction pre with
  | nil =>
    intro old post _ hold
    simp only [List.nil_append]
    unfold registerLoop
    rw [if_pos hold]
  | cons s pre ih =>
    intro old post hpre hold
    simp only [List.cons_append]
    unfold registerLoop
    rw [if_neg (hpre s (List.mem_cons_self _ _))]
    rw [ih old post (fun x hx => hpre x (List.mem_cons_of_mem _ hx)) hold]

theorem first_match_decomp (p : ServerInfo → Bool) :
    ∀ servers : List ServerInfo, servers.filter p ≠ [] →
      ∃ pre old post, servers = pre ++ old :: post ∧ p old = true ∧
        ∀ x ∈ pre, p x = false := by
  intro servers
  induction servers with
  | nil => intro h; simp at h
  | cons s rest ih =>
    intro h
    by_cases hs : p s = true
    · exact ⟨[], s, rest, rfl, hs, by simp⟩
    · have hs2 : p s = false := by
        cases hps : p s
        · rfl
        · exact absurd hps hs
      have hrest : rest.filter p ≠ [] := by
        rw [List.filter_cons, if_neg (by simp [hs2])] at h
        exact h
      obtain ⟨pre, old, post, hsplit, hold, hpre⟩ := ih hrest
      refine ⟨s :: pre, old, post, by rw [hsplit]; rfl, hold, ?_⟩
      intro x hx
      rcases List.mem_cons.mp hx with rfl | hx2
      · exact hs2
      · exact hpre x hx2

/-- Boolean (ip, port) key test used to state registry uniqueness. -/
def keyMatch (ip : String) (port : Int) (s : ServerInfo) : Bool :=
  decide (s.ip = ip ∧ s.port = port)

/-- C5 as stated is false in two ways. First, on re-registration the source
rebuilds the record as ServerInfo(ip, port, name, True, time.time(),
time.time()), whose fifth positional argument is last_response_time, so the
replaced record carries last_response_time = now (here 5) and not 0 as the
claim requires. Second, against an arbitrary registry state holding two
records with the key, only the first is replaced, so two records with the
key remain, not exactly one. -/
theorem register_replace_counterexample :
    (registerServer 5 [⟨"a", 1, "old", true, 7, 7, 3⟩]
        (some "a") (some 1) (some "new")).1 =
      [⟨"a", 1, "new", true, 5, 5, 0⟩] ∧
    ¬ ((registerServer 5 [⟨"a", 1, "old", true, 7, 7, 3⟩]
        (some "a") (some 1) (some "new")).1 =
      [⟨"a", 1, "new", true, 0, 5, 0⟩]) ∧
    ((registerServer 5 [⟨"a", 1, "o1", true, 7, 7, 3⟩, ⟨"a", 1, "o2", true, 7, 7, 3⟩]
        (some "a") (some 1) (some "new")).1.filter (keyMatch "a" 1)).length = 2 :=
  ⟨by decide, by decide, by decide⟩

/-- C5 amended: for every valid registration (non-empty ip and name, port in
[1, 65535]) against a registry holding at most one record with key
(ip, port) — an invariant of all registries the manager builds — the reply is
registered and exactly one record with that key remains, namely
(ip, port, name, active = true, last_response_time = now,
last_check_time = now, total_processed = 0); if a record with the key
existed, the first such record is replaced in place, otherwise the new record
is appended. -/
theorem register_replace_spec (now : Int) (servers : List ServerInfo)
    (ip name : String) (port : Int)
    (hip : ip ≠ "") (hname : name ≠ "") (hport1 : 0 < port) (hport2 : port ≤ 65535)
    (hdup : (servers.filter (keyMatch ip port)).length ≤ 1) :
    (registerServer now servers (some ip) (some port) (some name)).2 = .registered ∧
    (registerServer now servers (some ip) (some port) (some name)).1.filter
        (keyMatch ip port) = [newServerRecord now ip port name] ∧
    (servers.filter (keyMatch ip port) = [] →
      (registerServer now servers (some ip) (some port) (some name)).1 =
        servers ++ [newServerRecord now ip port name]) ∧
    (servers.filter (keyMatch ip port) ≠ [] →
      ∃ pre old post, servers = pre ++ old :: post ∧
        (old.ip = ip ∧ old.port = port) ∧
        (∀ x ∈ pre, ¬(x.ip = ip ∧ x.port = port)) ∧
        (registerServer now servers (some ip) (some port) (some name)).1 =
          pre ++ newServerRecord now ip port name :: post) := by
  have hmiss : ¬(ip = "" ∨ port = 0 ∨ name = "") := by
    rintro (h | h | h)
    · exact hip h
    · omega
    · exact hname h
  have hrange : ¬(port ≤ 0 ∨ port > 65535) := by omega
  have hred : registerServer now servers (some ip) (some port) (some name) =
      (registerLoop now ip port name servers, .registered) := by
    unfold registerServer
    dsimp only
    rw [if_neg hmiss, if_neg hrange]
  have hnewMatch : keyMatch ip port (newServerRecord now ip port name) = true := by
    simp [keyMatch, newServerRecord]
  rw [hred]
  by_cases hf : servers.filter (keyMatch ip port) = []
  · have hnom : ∀ x ∈ servers, ¬(x.ip = ip ∧ x.port = port) := by
      intro x hx
      have := List.filter_eq_nil_iff.mp hf x hx
      simpa [keyMatch] using this
    have hloop := registerLoop_no_match now ip name port servers hnom
    refine ⟨rfl, ?_, fun _ => hloop, fun hcon => absurd hf hcon⟩
    simp only [hloop, List.filter_append, hf, List.nil_append]
    rw [List.filter_cons, if_pos (by simp [hnewMatch])]
    rfl
  · obtain ⟨pre, old, post, hsplit, hold, hpre⟩ :=
      first_match_decomp (keyMatch ip port) servers hf
    have holdP : old.ip = ip ∧ old.port = port := by
      simpa [keyMatch] using hold
    have hpreP : ∀ x ∈ pre, ¬(x.ip = ip ∧ x.port = port) := by
      intro x hx
      have := hpre x hx
      simpa [keyMatch] using this
    have hloop : registerLoop now ip port name servers =
        pre ++ newServerRecord now ip port name :: post := by
      rw [hsplit]
      exact registerLoop_first_match now ip name port pre old post hpreP holdP
    have hfilterPre : pre.filter (keyMatch ip port) = [] :=
      List.filter_eq_nil_iff.mpr (fun x hx => by simp [hpre x hx])
    have hfilterPost : post.filter (keyMatch ip port) = [] := by
      rw [hsplit] at hdup
      rw [List.filter_append, List.filter_cons, if_pos (by simp [hold]), hfilterPre,
        List.nil_append] at hdup
      simp only [List.length_cons] at hdup
      have : (post.filter (keyMatch ip port)).length = 0 := by omega
      exact List.eq_nil_of_length_eq_zero this
    refine ⟨rfl, ?_, fun hcon => absurd hcon hf, fun _ => ⟨pre, old, post, hsplit, holdP, hpreP, hloop⟩⟩
    rw [hloop, List.filter_append, hfilterPre, List.nil_append, List.filter_cons,
      if_pos (by simp [hnewMatch]), hfilterPost]

/-- Witness for register_replace_spec: re-registering the only record with
key ("a", 1) at time 5. -/
theorem register_replace_spec_witness :
    ("a" : String) ≠ "" ∧ ("new" : String) ≠ "" ∧ (0 : Int) < 1 ∧ (1 : Int) ≤ 65535 ∧
    (([⟨"a", 1, "old", true, 7, 7, 3⟩] : List ServerInfo).filter
      (keyMatch "a" 1)).length ≤ 1 ∧
    ((registerServer 5 [⟨"a", 1, "old", true, 7, 7, 3⟩]
        (some "a") (some 1) (some "new")).2 = .registered ∧
     (registerServer 5 [⟨"a", 1, "old", true, 7, 7, 3⟩]
        (some "a") (some 1) (some "new")).1.filter (keyMatch "a" 1) =
       [newServerRecord 5 "a" 1 "new"] ∧
     (([⟨"a", 1, "old", true, 7, 7, 3⟩] : List ServerInfo).filter
        (keyMatch "a" 1) = [] →
       (registerServer 5 [⟨"a", 1, "old", true, 7, 7, 3⟩]
          (some "a") (some 1) (some "new")).1 =
         [⟨"a", 1, "old", true, 7, 7, 3⟩] ++ [newServerRecord 5 "a" 1 "new"]) ∧
     (([⟨"a", 1, "old", true, 7, 7, 3⟩] : List ServerInfo).filter
        (keyMatch "a" 1) ≠ [] →
       ∃ pre old post, ([⟨"a", 1, "old", true, 7, 7, 3⟩] : List ServerInfo) =
           pre ++ old :: post ∧
         (old.ip = "a" ∧ old.port = 1) ∧
         (∀ x ∈ pre, ¬(x.ip = "a" ∧ x.port = 1)) ∧
         (registerServer 5 [⟨"a", 1, "old", true, 7, 7, 3⟩]
            (some "a") (some 1) (some "new")).1 =
           pre ++ newServerRecord 5 "a" 1 "new" :: post)) :=
  ⟨by decide, by decide, by decide, by decide, by decide,
    register_replace_spec 5 [⟨"a", 1, "old", true, 7, 7, 3⟩] "a" "new" 1
      (by decide) (by decide) (by decide) (by decide) (by decide)⟩

/-- C6 as stated is false at port 0: a port outside [1, 65535] that is falsy
is caught by the presence check all([ip, port, name]) first, so the reply
carries the missing-fields mensaje and not the invalid-port one. -/
theorem register_invalid_port_counterexample :
    registerServer 0 [] (some "10.0.0.5") (some 0) (some "X") =
      ([], .errorReply missingFieldsMsg) ∧
    RegReply.errorReply missingFieldsMsg ≠ RegReply.errorReply invalidPortMsg :=
  ⟨by decide, by decide⟩

/-- C6 amended: for every registration whose ip and name are present and
non-empty and whose port is a nonzero integer outside [1, 65535] (for
example 70000), register_server replies with status error and the
invalid-port mensaje ("Puerto inválido"), and the registry is unchanged. -/
theorem register_invalid_port (now : Int) (servers : List ServerInfo)
    (ip name : String) (port : Int) (hip : ip ≠ "") (hname : name ≠ "")
    (hp0 : port ≠ 0) (hrange : port ≤ 0 ∨ port > 65535) :
    registerServer now servers (some ip) (some port) (some name) =
      (servers, .errorReply invalidPortMsg) := by
  have hmiss : ¬(ip = "" ∨ port = 0 ∨ name = "") := by
    rintro (h | h | h)
    · exact hip h
    · exact hp0 h
    · exact hname h
  unfold registerServer
  dsimp only
  rw [if_neg hmiss, if_pos hrange]

/-- Witness for register_invalid_port at the spec scenario: port 70000. -/
theorem register_invalid_port_witness :
    ("10.0.0.5" : String) ≠ "" ∧ ("X" : String) ≠ "" ∧ (70000 : Int) ≠ 0 ∧
    ((70000 : Int) ≤ 0 ∨ (70000 : Int) > 65535) ∧
    registerServer 9 [] (some "10.0.0.5") (some 70000) (some "X") =
      ([], .errorReply invalidPortMsg) :=
  ⟨by decide, by decide, by decide, by decide,
    register_invalid_port 9 [] "10.0.0.5" "X" 70000
      (by decide) (by decide) (by decide) (by decide)⟩

/-- C10: for every registration in which any of ip, port, name is falsy
(missing, None modelled as none, empty string, or port 0), register_server
replies with status error and the missing-fields mensaje — so port 0 is
rejected by the presence check, not the port-range check — and the registry
is unchanged. -/
theorem register_missing_fields (now : Int) (servers : List ServerInfo)
    (ip? : Option String) (port? : Option Int) (name? : Option String)
    (hfalsy : ip? = none ∨ port? = none ∨ name? = none ∨
      ip? = some "" ∨ port? = some 0 ∨ name? = some "") :
    registerServer now servers ip? port? name? =
      (servers, .errorReply missingFieldsMsg) := by
  cases ip? with
  | none => rfl
  | some ip =>
    cases port? with
    | none => rfl
    | some port =>
      cases name? with
      | none => rfl
      | some name =>
        have hcond : ip = "" ∨ port = 0 ∨ name = "" := by
          rcases hfalsy with h | h | h | h | h | h <;> simp_all
        unfold registerServer
        dsimp only
        rw [if_pos hcond]

/-- Witness for register_missing_fields at port 0. -/
theorem register_missing_fields_witness :
    ((some "10.0.0.5" : Option String) = none ∨ (some (0 : Int) : Option Int) = none ∨
      (some "X" : Option String) = none ∨ (some "10.0.0.5" : Option String) = some "" ∨
      (some (0 : Int) : Option Int) = some 0 ∨ (some "X" : Option String) = some "") ∧
    registerServer 3 [⟨"b", 2, "w", true, 0, 0, 0⟩]
        (some "10.0.0.5") (some 0) (some "X") =
      ([⟨"b", 2, "w", true, 0, 0, 0⟩], .errorReply missingFieldsMsg) :=
  ⟨by decide,
    register_missing_fields 3 [⟨"b", 2, "w", true, 0, 0, 0⟩]
      (some "10.0.0.5") (some 0) (some "X") (by decide)⟩

/-! ### Claim C8: the job counters -/

theorem foldl_recordDispatch_le :
    ∀ (outcomes : List Bool) (c : Nat × Nat), c.2 ≤ c.1 →
      (outcomes.foldl recordDispatch c).2 ≤ (outcomes.foldl recordDispatch c).1 := by
  intro outcomes
  induction outcomes with
  | nil => intro c h; exact h
  | cons s rest ih =>
    intro c h
    simp only [List.foldl_cons]
    apply ih
    unfold recordDispatch
    cases s <;> simp_all
    omega


theorem foldl_recordDispatch_mono :
    ∀ (more : List Bool) (c : Nat × Nat),
      c.1 ≤ (more.foldl recordDispatch c).1 ∧ c.2 ≤ (more.foldl recordDispatch c).2 := by
  intro more
  induction more with
  | nil => intro c; exact ⟨le_refl _, le_refl _⟩
  | cons s rest ih =>
    intro c
    simp only [List.foldl_cons]
    have h1 := ih (recordDispatch c s)
    have h2 : c.1 ≤ (recordDispatch c s).1 ∧ c.2 ≤ (recordDispatch c s).2 := by
      unfold recordDispatch
      cases s <;> simp_all
    exact ⟨le_trans h2.1 h1.1, le_trans h2.2 h1.2⟩

/-- C8: after each completed dispatch interaction, total_operations grows by
exactly one regardless of the outcome and successful_operations grows by one
exactly on a true return; hence along any sequence of dispatch outcomes from
the initial (0, 0) state, successful_operations never exceeds
total_operations and both counters are non-decreasing. -/
theorem dispatch_counters :
    (∀ (c : Nat × Nat) (s : Bool),
      (recordDispatch c s).1 = c.1 + 1 ∧
      (recordDispatch c s).2 = (if s then c.2 + 1 else c.2) ∧
      c.1 ≤ (recordDispatch c s).1 ∧ c.2 ≤ (recordDispatch c s).2) ∧
    (∀ outcomes : List Bool,
      (runDispatches outcomes).2 ≤ (runDispatches outcomes).1) ∧
    (∀ outcomes more : List Bool,
      (runDispatches outcomes).1 ≤ (runDispatches (outcomes ++ more)).1 ∧
      (runDispatches outcomes).2 ≤ (runDispatches (outcomes ++ more)).2) := by
  refine ⟨?_, ?_, ?_⟩
  · intro c s
    unfold recordDispatch
    cases s <;> simp_all
  · intro outcomes
    exact foldl_recordDispatch_le outcomes (0, 0) (le_refl 0)
  · intro outcomes more
    unfold runDispatches
    rw [List.foldl_append]
    exact foldl_recordDispatch_mono more _

/-! ### The dispatcher pipeline, characterized -/

/-- The ServerResult produced by send_chunk_to_server for a given server and
chunk; it does not depend on the registry. -/
def resultOf (net : Net) (s : ServerInfo) (c : List Int) : ServerResult :=
  match net s c with
  | .ok dt => ⟨s, dt.1, true, "", dt.2⟩
  | .error m => ⟨s, [], false, m, 0⟩

/-- Whether the round trip for the pair (server, chunk) raises. -/
def workerFails (net : Net) (p : ServerInfo × List Int) : Bool :=
  match net p.1 p.2 with
  | .ok _ => false
  | .error _ => true

/-- The sorted reply for the pair (server, chunk), when the round trip
succeeds. -/
def workerReply (net : Net) (p : ServerInfo × List Int) : Option (List Int) :=
  match net p.1 p.2 with
  | .ok dt => some dt.1
  | .error _ => none

/-- The zip(active_servers, chunks) pairing of process_distributed. -/
def dispatchPairs (registry : List ServerInfo) (numbers : List Int) :
    List (ServerInfo × List Int) :=
  (getActiveServers registry).zip
    (makeChunks numbers (getActiveServers registry).length)

/-- Two registry records with different (ip, port) keys. -/
def keyNe (a b : ServerInfo) : Prop := ¬(a.ip = b.ip ∧ a.port = b.port)

theorem sendChunkToServer_snd (net : Net) (registry : List ServerInfo)
    (s : ServerInfo) (c : List Int) :
    (sendChunkToServer net registry s c).2 = resultOf net s c := by
  unfold sendChunkToServer resultOf
  cases net s c <;> rfl

theorem runWorkers_snd (net : Net) :
    ∀ (ps : List (ServerInfo × List Int)) (registry : List ServerInfo),
      (runWorkers net registry ps).2 = ps.map (fun p => resultOf net p.1 p.2) := by
  intro ps
  induction ps with
  | nil => intro registry; rfl
  | cons p rest ih =>
    intro registry
    obtain ⟨s, c⟩ := p
    simp only [runWorkers, List.map_cons]
    rw [sendChunkToServer_snd, ih]

theorem results_success_data (net : Net) :
    ∀ ps : List (ServerInfo × List Int),
      ((ps.map (fun p => resultOf net p.1 p.2)).filter (fun x => x.success)).map
        (fun x => x.data) = ps.filterMap (workerReply net) := by
  intro ps
  induction ps with
  | nil => rfl
  | cons p rest ih =>
    cases hnet : net p.1 p.2 with
    | ok dt =>
      have hres : resultOf net p.1 p.2 = ⟨p.1, dt.1, true, "", dt.2⟩ := by
        simp [resultOf, hnet]
      have hrep : workerReply net p = some dt.1 := by simp [workerReply, hnet]
      simp only [List.map_cons, List.filter_cons, List.filterMap_cons, hres, hrep]
      simp [ih]
    | error m =>
      have hres : resultOf net p.1 p.2 = ⟨p.1, [], false, m, 0⟩ := by
        simp [resultOf, hnet]
      have hrep : workerReply net p = none := by simp [workerReply, hnet]
      simp only [List.map_cons, List.filter_cons, List.filterMap_cons, hres, hrep]
      simp [ih]

theorem results_fail_count (net : Net) :
    ∀ ps : List (ServerInfo × List Int),
      ((ps.map (fun p => resultOf net p.1 p.2)).filter (fun x => !x.success)).length =
        (ps.filter (workerFails net)).length := by
  intro ps
  induction ps with
  | nil => rfl
  | cons p rest ih =>
    cases hnet : net p.1 p.2 with
    | ok dt =>
      have hres : resultOf net p.1 p.2 = ⟨p.1, dt.1, true, "", dt.2⟩ := by
        simp [resultOf, hnet]
      have hfl : workerFails net p = false := by simp [workerFails, hnet]
      simp only [List.map_cons, List.filter_cons, hres, hfl]
      simp [ih]
    | error m =>
      have hres : resultOf net p.1 p.2 = ⟨p.1, [], false, m, 0⟩ := by
        simp [resultOf, hnet]
      have hfl : workerFails net p = true := by simp [workerFails, hnet]
      simp only [List.map_cons, List.filter_cons, hres, hfl]
      simp [ih]

theorem reply_fail_length (net : Net) :
    ∀ ps : List (ServerInfo × List Int),
      (ps.filterMap (workerReply net)).length + (ps.filter (workerFails net)).length =
        ps.length := by
  intro ps
  induction ps with
  | nil => rfl
  | cons p rest ih =>
    cases hnet : net p.1 p.2 with
    | ok dt =>
      have hrep : workerReply net p = some dt.1 := by simp [workerReply, hnet]
      have hfl : workerFails net p = false := by simp [workerFails, hnet]
      simp only [List.filterMap_cons, List.filter_cons, hrep, hfl]
      rw [if_neg (by simp)]
      simp only [List.length_cons]
      omega
    | error m =>
      have hrep : workerReply net p = none := by simp [workerReply, hnet]
      have hfl : workerFails net p = true := by simp [workerFails, hnet]
      simp only [List.filterMap_cons, List.filter_cons, hrep, hfl]
      rw [if_pos trivial]
      simp only [List.length_cons]
      omega

theorem dispatchPairs_length (registry : List ServerInfo) (numbers : List Int) :
    (dispatchPairs registry numbers).length = (getActiveServers registry).length := by
  unfold dispatchPairs
  rw [List.length_zip, makeChunks_length]
  exact Nat.min_self _

theorem multiset_coe_flatten :
    ∀ L : List (List Int),
      ((L.flatten : List Int) : Multiset Int) = (L.map listMS).sum := by
  intro L
  induction L with
  | nil => rfl
  | cons l ls ih =>
    have hstep : ((l :: ls).map listMS).sum =
        (l : Multiset Int) + (ls.map listMS).sum := by
      simp [listMS]
    rw [hstep, List.flatten_cons, ← Multiset.coe_add, ih]

theorem processDistributed_of_active (net : Net) (registry : List ServerInfo)
    (stats : SortStats) (numbers : List Int)
    (hactive : getActiveServers registry ≠ []) :
    processDistributed net registry stats numbers =
      (if ((dispatchPairs registry numbers).filterMap (workerReply net)).isEmpty then
        ⟨(runWorkers net registry (dispatchPairs registry numbers)).1,
         { stats with
            numbers_sorted := stats.numbers_sorted + numbers.length,
            total_errors := stats.total_errors +
              ((dispatchPairs registry numbers).filter (workerFails net)).length },
         none, false⟩
      else
        ⟨(runWorkers net registry (dispatchPairs registry numbers)).1,
         { stats with
            numbers_sorted := stats.numbers_sorted + numbers.length,
            total_errors := stats.total_errors +
              ((dispatchPairs registry numbers).filter (workerFails net)).length },
         some (merge_sorted_lists
            ((dispatchPairs registry numbers).filterMap (workerReply net))),
         true⟩) := by
  have hne : (getActiveServers registry).isEmpty = false := by
    cases hgo : getActiveServers registry
    · exact absurd hgo hactive
    · rfl
  unfold processDistributed
  rw [if_neg (by simp [hne])]
  unfold dispatchPairs
  simp only [runWorkers_snd, results_success_data, results_fail_count]

/-! ### Claim C9: numbers_sorted counts attempted numbers -/

/-- C9: whenever process_distributed runs with at least one active worker,
numbers_sorted grows by the input length before any worker outcome is
examined: the increment happens for every net, including one where every
worker fails and the call returns false. -/
theorem numbers_sorted_counts_attempts (net : Net) (registry : List ServerInfo)
    (stats : SortStats) (numbers : List Int)
    (hactive : getActiveServers registry ≠ []) :
    (processDistributed net registry stats numbers).stats.numbers_sorted =
      stats.numbers_sorted + numbers.length := by
  rw [processDistributed_of_active net registry stats numbers hactive]
  split <;> rfl

/-- Witness for numbers_sorted_counts_attempts: one active worker whose
transport always fails; the counter still grows by the three attempted
numbers and the call returns false. -/
theorem numbers_sorted_counts_attempts_witness :
    getActiveServers [⟨"a", 1, "w1", true, 0, 0, 0⟩] ≠ [] ∧
    (processDistributed (fun _ _ => .error "refused")
        [⟨"a", 1, "w1", true, 0, 0, 0⟩]
        ⟨0, 10, 0, 0⟩ [5, 1, 3]).stats.numbers_sorted = 10 + 3 ∧
    (processDistributed (fun _ _ => .error "refused")
        [⟨"a", 1, "w1", true, 0, 0, 0⟩]
        ⟨0, 10, 0, 0⟩ [5, 1, 3]).retval = false :=
  ⟨by decide,
   numbers_sorted_counts_attempts (fun _ _ => .error "refused")
     [⟨"a", 1, "w1", true, 0, 0, 0⟩] ⟨0, 10, 0, 0⟩ [5, 1, 3] (by decide),
   by decide⟩

theorem honest_filterMap (net : Net) :
    ∀ ps : List (ServerInfo × List Int),
      (∀ p ∈ ps, ∃ d t, net p.1 p.2 = .ok (d, t) ∧ d.Sorted (· ≤ ·) ∧
        (d : Multiset Int) = (p.2 : Multiset Int)) →
      (∀ l ∈ ps.filterMap (workerReply net), l.Sorted (· ≤ ·)) ∧
      ((ps.filterMap (workerReply net)).map listMS).sum =
        (ps.map (fun p => (p.2 : Multiset Int))).sum ∧
      (ps.filterMap (workerReply net)).length = ps.length := by
  intro ps
  induction ps with
  | nil => intro _; exact ⟨by simp, rfl, rfl⟩
  | cons p rest ih =>
    intro h
    obtain ⟨d, t, hnet, hsort, hms⟩ := h p (List.mem_cons_self _ _)
    obtain ⟨ih1, ih2, ih3⟩ := ih (fun q hq => h q (List.mem_cons_of_mem _ hq))
    have hrep : workerReply net p = some d := by simp [workerReply, hnet]
    refine ⟨?_, ?_, ?_⟩
    · intro l hl
      simp only [List.filterMap_cons, hrep] at hl
      rcases List.mem_cons.mp hl with rfl | hl2
      · exact hsort
      · exact ih1 l hl2
    · simp only [List.filterMap_cons, hrep]
      have hmap1 : ((d :: rest.filterMap (workerReply net)).map
          listMS).sum =
          (d : Multiset Int) +
            ((rest.filterMap (workerReply net)).map listMS).sum := by
        simp [listMS]
      have hmap2 : ((p :: rest).map (fun q => (q.2 : Multiset Int))).sum =
          (p.2 : Multiset Int) + (rest.map (fun q => (q.2 : Multiset Int))).sum := by
        simp
      rw [hmap1, hmap2, ih2, hms]
    · simp only [List.filterMap_cons, hrep, List.length_cons, ih3]

/-! ### Claim C1: end-to-end sort correctness with honest workers -/

/-- C1: for every input S and at least one active worker, if every worker,
given its partition, replies with a sorted permutation of that partition (so
all succeed), then process_distributed returns true and the output sent to
the client is non-decreasing with the same multiset as S. -/
theorem dispatch_sort_correct (net : Net) (registry : List ServerInfo)
    (stats : SortStats) (numbers : List Int)
    (hactive : getActiveServers registry ≠ [])
    (honest : ∀ p ∈ dispatchPairs registry numbers, ∃ d t,
      net p.1 p.2 = .ok (d, t) ∧ d.Sorted (· ≤ ·) ∧
      (d : Multiset Int) = (p.2 : Multiset Int)) :
    (processDistributed net registry stats numbers).retval = true ∧
    ∃ O, (processDistributed net registry stats numbers).sent = some O ∧
      O.Sorted (· ≤ ·) ∧ (O : Multiset Int) = (numbers : Multiset Int) := by
  obtain ⟨hsorted, hsum, hlen⟩ := honest_filterMap net _ honest
  have hc : 1 ≤ (getActiveServers registry).length := by
    cases hgo : getActiveServers registry
    · exact absurd hgo hactive
    · simp
  have hlenpairs := dispatchPairs_length registry numbers
  have hne : ((dispatchPairs registry numbers).filterMap (workerReply net)).isEmpty
      = false := by
    cases hgo : (dispatchPairs registry numbers).filterMap (workerReply net)
    · rw [hgo] at hlen
      simp only [List.length_nil] at hlen
      omega
    · rfl
  rw [processDistributed_of_active net registry stats numbers hactive,
    if_neg (by simp [hne])]
  refine ⟨rfl, merge_sorted_lists
    ((dispatchPairs registry numbers).filterMap (workerReply net)), rfl, ?_, ?_⟩
  · exact merge_sorted _ hsorted
  · rw [merge_msum, hsum]
    have hsnd : (dispatchPairs registry numbers).map Prod.snd =
        makeChunks numbers (getActiveServers registry).length := by
      unfold dispatchPairs
      apply List.map_snd_zip
      rw [makeChunks_length]
    have hmapped : (dispatchPairs registry numbers).map
        (fun p => (p.2 : Multiset Int)) =
        (makeChunks numbers (getActiveServers registry).length).map
          listMS := by
      rw [← hsnd, List.map_map]
      rfl
    rw [hmapped, ← multiset_coe_flatten, makeChunks_flatten _ _ hc]

/-- Witness for dispatch_sort_correct: a single reachable worker that answers
the one partition [5,1,3] with its sorted permutation [1,3,5]. -/
theorem dispatch_sort_correct_witness :
    getActiveServers [⟨"a", 1, "w1", true, 0, 0, 0⟩] ≠ [] ∧
    (∀ p ∈ dispatchPairs [⟨"a", 1, "w1", true, 0, 0, 0⟩] [5, 1, 3], ∃ d t,
      (fun (_ : ServerInfo) (_ : List Int) =>
        (Except.ok ([1, 3, 5], 0) : Except String (List Int × Int))) p.1 p.2 =
          .ok (d, t) ∧ d.Sorted (· ≤ ·) ∧
      (d : Multiset Int) = (p.2 : Multiset Int)) ∧
    ((processDistributed (fun _ _ => .ok ([1, 3, 5], 0))
        [⟨"a", 1, "w1", true, 0, 0, 0⟩] ⟨0, 0, 0, 0⟩ [5, 1, 3]).retval = true ∧
     ∃ O, (processDistributed (fun _ _ => .ok ([1, 3, 5], 0))
        [⟨"a", 1, "w1", true, 0, 0, 0⟩] ⟨0, 0, 0, 0⟩ [5, 1, 3]).sent = some O ∧
       O.Sorted (· ≤ ·) ∧ (O : Multiset Int) = (([5, 1, 3] : List Int) : Multiset Int)) := by
  have honest : ∀ p ∈ dispatchPairs [⟨"a", 1, "w1", true, 0, 0, 0⟩] [5, 1, 3], ∃ d t,
      (fun (_ : ServerInfo) (_ : List Int) =>
        (Except.ok ([1, 3, 5], 0) : Except String (List Int × Int))) p.1 p.2 =
          .ok (d, t) ∧ d.Sorted (· ≤ ·) ∧
      (d : Multiset Int) = (p.2 : Multiset Int) := by
    intro p hp
    have hp2 : p = (⟨"a", 1, "w1", true, 0, 0, 0⟩, ([5, 1, 3] : List Int)) :=
      List.mem_singleton.mp hp
    rw [hp2]
    exact ⟨[1, 3, 5], 0, rfl, by decide, by decide⟩
  exact ⟨by decide, honest,
    dispatch_sort_correct (fun _ _ => .ok ([1, 3, 5], 0))
      [⟨"a", 1, "w1", true, 0, 0, 0⟩] ⟨0, 0, 0, 0⟩ [5, 1, 3] (by decide) honest⟩

/-! ### Registry effects of a failing dispatch -/

instance : DecidableRel keyNe := fun a b => by unfold keyNe; exact inferInstance

theorem updateServerStats_triple :
    ∀ (reg : List ServerInfo) (ip : String) (port t : Int) (n : Nat),
      (updateServerStats reg ip port t n).map (fun r => (r.ip, r.port, r.active)) =
        reg.map (fun r => (r.ip, r.port, r.active)) := by
  intro reg ip port t n
  induction reg with
  | nil => rfl
  | cons s rest ih =>
    unfold updateServerStats
    split
    · simp
    · simp only [List.map_cons]
      rw [ih]

theorem markServerInactive_keys :
    ∀ (reg : List ServerInfo) (ip : String) (port : Int),
      (markServerInactive reg ip port).map (fun r => (r.ip, r.port)) =
        reg.map (fun r => (r.ip, r.port)) := by
  intro reg ip port
  induction reg with
  | nil => rfl
  | cons s rest ih =>
    unfold markServerInactive
    split
    · simp
    · simp only [List.map_cons]
      rw [ih]

theorem pairwise_keyNe_of_keys_eq (reg reg' : List ServerInfo)
    (hmap : reg'.map (fun r => (r.ip, r.port)) = reg.map (fun r => (r.ip, r.port)))
    (hpw : reg.Pairwise keyNe) : reg'.Pairwise keyNe := by
  have h1 : (reg.map (fun r => (r.ip, r.port))).Pairwise
      (fun p q => ¬(p.1 = q.1 ∧ p.2 = q.2)) := by
    rw [List.pairwise_map]
    exact hpw
  rw [← hmap] at h1
  rw [List.pairwise_map] at h1
  exact h1

theorem mem_updateServerStats {reg : List ServerInfo} {ip : String} {port t : Int}
    {n : Nat} {r : ServerInfo} (hr : r ∈ updateServerStats reg ip port t n) :
    ∃ r0 ∈ reg, r.ip = r0.ip ∧ r.port = r0.port ∧ r.active = r0.active := by
  induction reg with
  | nil => simp [updateServerStats] at hr
  | cons s rest ih =>
    unfold updateServerStats at hr
    split at hr
    · rcases List.mem_cons.mp hr with rfl | hr2
      · exact ⟨s, List.mem_cons_self _ _, rfl, rfl, rfl⟩
      · exact ⟨r, List.mem_cons_of_mem _ hr2, rfl, rfl, rfl⟩
    · rcases List.mem_cons.mp hr with rfl | hr2
      · exact ⟨r, List.mem_cons_self _ _, rfl, rfl, rfl⟩
      · obtain ⟨r0, hr0, h1, h2, h3⟩ := ih hr2
        exact ⟨r0, List.mem_cons_of_mem _ hr0, h1, h2, h3⟩

theorem mem_markServerInactive {reg : List ServerInfo} {ip : String} {port : Int}
    {r : ServerInfo} (hr : r ∈ markServerInactive reg ip port) :
    ∃ r0 ∈ reg, r.ip = r0.ip ∧ r.port = r0.port ∧
      (r.active = r0.active ∨ r.active = false) := by
  induction reg with
  | nil => simp [markServerInactive] at hr
  | cons s rest ih =>
    unfold markServerInactive at hr
    split at hr
    · rcases List.mem_cons.mp hr with rfl | hr2
      · exact ⟨s, List.mem_cons_self _ _, rfl, rfl, Or.inr rfl⟩
      · exact ⟨r, List.mem_cons_of_mem _ hr2, rfl, rfl, Or.inl rfl⟩
    · rcases List.mem_cons.mp hr with rfl | hr2
      · exact ⟨r, List.mem_cons_self _ _, rfl, rfl, Or.inl rfl⟩
      · obtain ⟨r0, hr0, h1, h2, h3⟩ := ih hr2
        exact ⟨r0, List.mem_cons_of_mem _ hr0, h1, h2, h3⟩

/-- The registry keeps every record with key (kip, kport) inactive. -/
def keyInactive (kip : String) (kport : Int) (reg : List ServerInfo) : Prop :=
  ∀ r ∈ reg, r.ip = kip → r.port = kport → r.active = false

theorem keyInactive_updateServerStats {kip : String} {kport : Int}
    {reg : List ServerInfo} (h : keyInactive kip kport reg)
    (ip : String) (port t : Int) (n : Nat) :
    keyInactive kip kport (updateServerStats reg ip port t n) := by
  intro r hr hip hport
  obtain ⟨r0, hr0, h1, h2, h3⟩ := mem_updateServerStats hr
  rw [h3]
  exact h r0 hr0 (h1 ▸ hip) (h2 ▸ hport)

theorem keyInactive_markServerInactive {kip : String} {kport : Int}
    {reg : List ServerInfo} (h : keyInactive kip kport reg)
    (ip : String) (port : Int) :
    keyInactive kip kport (markServerInactive reg ip port) := by
  intro r hr hip hport
  obtain ⟨r0, hr0, h1, h2, h3⟩ := mem_markServerInactive hr
  rcases h3 with h3 | h3
  · rw [h3]
    exact h r0 hr0 (h1 ▸ hip) (h2 ▸ hport)
  · exact h3

theorem markServerInactive_sets (reg : List ServerInfo) (ip : String) (port : Int)
    (hpw : reg.Pairwise keyNe) :
    keyInactive ip port (markServerInactive reg ip port) := by
  induction reg with
  | nil => intro r hr; simp [markServerInactive] at hr
  | cons s rest ih =>
    intro r hr hip hport
    unfold markServerInactive at hr
    split at hr
    case isTrue hmatch =>
      rcases List.mem_cons.mp hr with rfl | hr2
      · rfl
      · exfalso
        have hne := (List.pairwise_cons.mp hpw).1 r hr2
        exact hne ⟨by rw [hmatch.1, hip], by rw [hmatch.2, hport]⟩
    case isFalse hmatch =>
      rcases List.mem_cons.mp hr with rfl | hr2
      · exact absurd ⟨hip, hport⟩ hmatch
      · exact ih (List.pairwise_cons.mp hpw).2 r hr2 hip hport

theorem sendChunk_preserves_keyInactive (net : Net) {kip : String} {kport : Int}
    {reg : List ServerInfo} (h : keyInactive kip kport reg)
    (s : ServerInfo) (c : List Int) :
    keyInactive kip kport (sendChunkToServer net reg s c).1 := by
  unfold sendChunkToServer
  cases net s c with
  | ok dt => exact keyInactive_updateServerStats h _ _ _ _
  | error m => exact keyInactive_markServerInactive h _ _

theorem sendChunk_preserves_pairwise (net : Net) {reg : List ServerInfo}
    (hpw : reg.Pairwise keyNe) (s : ServerInfo) (c : List Int) :
    ((sendChunkToServer net reg s c).1).Pairwise keyNe := by
  unfold sendChunkToServer
  cases net s c with
  | ok dt =>
    apply pairwise_keyNe_of_keys_eq reg _ _ hpw
    have h := updateServerStats_triple reg s.ip s.port dt.2 c.length
    have h2 := congrArg (List.map (fun q : String × Int × Bool => (q.1, q.2.1))) h
    simpa [List.map_map, Function.comp] using h2
  | error m =>
    exact pairwise_keyNe_of_keys_eq reg _ (markServerInactive_keys reg s.ip s.port) hpw

theorem runWorkers_preserves_keyInactive (net : Net) {kip : String} {kport : Int} :
    ∀ (ps : List (ServerInfo × List Int)) (reg : List ServerInfo),
      keyInactive kip kport reg → keyInactive kip kport (runWorkers net reg ps).1 := by
  intro ps
  induction ps with
  | nil => intro reg h; exact h
  | cons q rest ih =>
    intro reg h
    obtain ⟨s, c⟩ := q
    simp only [runWorkers]
    exact ih _ (sendChunk_preserves_keyInactive net h s c)

theorem runWorkers_marks_failed (net : Net) :
    ∀ (ps : List (ServerInfo × List Int)) (reg : List ServerInfo),
      reg.Pairwise keyNe →
      ∀ p ∈ ps, workerFails net p = true →
        ∀ r ∈ (runWorkers net reg ps).1,
          r.ip = p.1.ip → r.port = p.1.port → r.active = false := by
  intro ps
  induction ps with
  | nil => intro reg _ p hp; simp at hp
  | cons q rest ih =>
    intro reg hpw p hp hfail r hr hip hport
    obtain ⟨s, c⟩ := q
    simp only [runWorkers] at hr
    rcases List.mem_cons.mp hp with rfl | hp2
    · obtain ⟨m, hm⟩ : ∃ m, net s c = .error m := by
        unfold workerFails at hfail
        cases hnc : net s c
        · exact ⟨_, rfl⟩
        · rw [hnc] at hfail; simp at hfail
      have hreg1 : (sendChunkToServer net reg s c).1 =
          markServerInactive reg s.ip s.port := by
        unfold sendChunkToServer
        rw [hm]
      rw [hreg1] at hr
      exact runWorkers_preserves_keyInactive net rest _
        (markServerInactive_sets reg s.ip s.port hpw) r hr hip hport
    · exact ih _ (sendChunk_preserves_pairwise net hpw s c) p hp2 hfail r hr hip hport

/-! ### Claim C7: failure isolation -/

/-- C7: when a job goes out to W active workers of which exactly F fail with
0 < F < W (and the rest succeed), process_distributed returns true, the
payload sent to the client is the merge of exactly the successful partition
replies, total_errors grows by exactly F, and every failed worker record in
the final registry (unique keys assumed, as the manager maintains) ends up
inactive. -/
theorem dispatch_partial_failure (net : Net) (registry : List ServerInfo)
    (stats : SortStats) (numbers : List Int)
    (hkeys : registry.Pairwise keyNe)
    (_hF : 0 < ((dispatchPairs registry numbers).filter (workerFails net)).length)
    (hFW : ((dispatchPairs registry numbers).filter (workerFails net)).length <
      (getActiveServers registry).length) :
    (processDistributed net registry stats numbers).retval = true ∧
    (processDistributed net registry stats numbers).sent =
      some (merge_sorted_lists
        ((dispatchPairs registry numbers).filterMap (workerReply net))) ∧
    (processDistributed net registry stats numbers).stats.total_errors =
      stats.total_errors +
        ((dispatchPairs registry numbers).filter (workerFails net)).length ∧
    ∀ p ∈ dispatchPairs registry numbers, workerFails net p = true →
      ∀ r ∈ (processDistributed net registry stats numbers).registry,
        r.ip = p.1.ip → r.port = p.1.port → r.active = false := by
  have hactive : getActiveServers registry ≠ [] := by
    intro hgo
    rw [hgo] at hFW
    simp at hFW
  have hlen := reply_fail_length net (dispatchPairs registry numbers)
  have hlenpairs := dispatchPairs_length registry numbers
  have hne : ((dispatchPairs registry numbers).filterMap (workerReply net)).isEmpty
      = false := by
    cases hgo : (dispatchPairs registry numbers).filterMap (workerReply net)
    · rw [hgo] at hlen
      simp only [List.length_nil] at hlen
      omega
    · rfl
  rw [processDistributed_of_active net registry stats numbers hactive,
    if_neg (by simp [hne])]
  refine ⟨rfl, rfl, rfl, ?_⟩
  intro p hp hfail r hr hip hport
  exact runWorkers_marks_failed net _ registry hkeys p hp hfail r hr hip hport

/-- Witness for dispatch_partial_failure: two active workers over [9,2,7,1];
the worker at "b" refuses the connection, the worker at "a" replies with its
sorted partition. -/
theorem dispatch_partial_failure_witness :
    ([⟨"a", 1, "w1", true, 0, 0, 0⟩, ⟨"b", 2, "w2", true, 0, 0, 0⟩] :
        List ServerInfo).Pairwise keyNe ∧
    0 < ((dispatchPairs [⟨"a", 1, "w1", true, 0, 0, 0⟩, ⟨"b", 2, "w2", true, 0, 0, 0⟩]
        [9, 2, 7, 1]).filter (workerFails
          (fun s _ => if s.ip = "a" then .ok ([2, 9], 0) else .error "refused"))).length ∧
    ((dispatchPairs [⟨"a", 1, "w1", true, 0, 0, 0⟩, ⟨"b", 2, "w2", true, 0, 0, 0⟩]
        [9, 2, 7, 1]).filter (workerFails
          (fun s _ => if s.ip = "a" then .ok ([2, 9], 0) else .error "refused"))).length <
      (getActiveServers [⟨"a", 1, "w1", true, 0, 0, 0⟩,
        ⟨"b", 2, "w2", true, 0, 0, 0⟩]).length ∧
    ((processDistributed
        (fun s _ => if s.ip = "a" then .ok ([2, 9], 0) else .error "refused")
        [⟨"a", 1, "w1", true, 0, 0, 0⟩, ⟨"b", 2, "w2", true, 0, 0, 0⟩]
        ⟨0, 0, 0, 0⟩ [9, 2, 7, 1]).retval = true ∧
     (processDistributed
        (fun s _ => if s.ip = "a" then .ok ([2, 9], 0) else .error "refused")
        [⟨"a", 1, "w1", true, 0, 0, 0⟩, ⟨"b", 2, "w2", true, 0, 0, 0⟩]
        ⟨0, 0, 0, 0⟩ [9, 2, 7, 1]).sent =
       some (merge_sorted_lists
         ((dispatchPairs [⟨"a", 1, "w1", true, 0, 0, 0⟩, ⟨"b", 2, "w2", true, 0, 0, 0⟩]
            [9, 2, 7, 1]).filterMap (workerReply
              (fun s _ => if s.ip = "a" then .ok ([2, 9], 0) else .error "refused")))) ∧
     (processDistributed
        (fun s _ => if s.ip = "a" then .ok ([2, 9], 0) else .error "refused")
        [⟨"a", 1, "w1", true, 0, 0, 0⟩, ⟨"b", 2, "w2", true, 0, 0, 0⟩]
        ⟨0, 0, 0, 0⟩ [9, 2, 7, 1]).stats.total_errors =
       0 + ((dispatchPairs [⟨"a", 1, "w1", true, 0, 0, 0⟩, ⟨"b", 2, "w2", true, 0, 0, 0⟩]
            [9, 2, 7, 1]).filter (workerFails
              (fun s _ => if s.ip = "a" then .ok ([2, 9], 0) else .error "refused"))).length ∧
     ∀ p ∈ dispatchPairs [⟨"a", 1, "w1", true, 0, 0, 0⟩, ⟨"b", 2, "w2", true, 0, 0, 0⟩]
        [9, 2, 7, 1],
       workerFails (fun s _ => if s.ip = "a" then .ok ([2, 9], 0) else .error "refused")
          p = true →
       ∀ r ∈ (processDistributed
          (fun s _ => if s.ip = "a" then .ok ([2, 9], 0) else .error "refused")
          [⟨"a", 1, "w1", true, 0, 0, 0⟩, ⟨"b", 2, "w2", true, 0, 0, 0⟩]
          ⟨0, 0, 0, 0⟩ [9, 2, 7, 1]).registry,
         r.ip = p.1.ip → r.port = p.1.port → r.active = false) :=
  ⟨by decide, by decide, by decide,
    dispatch_partial_failure
      (fun s _ => if s.ip = "a" then .ok ([2, 9], 0) else .error "refused")
      [⟨"a", 1, "w1", true, 0, 0, 0⟩, ⟨"b", 2, "w2", true, 0, 0, 0⟩]
      ⟨0, 0, 0, 0⟩ [9, 2, 7, 1] (by decide) (by decide) (by decide)⟩
